import Mathlib

/-!
Verification of the cf-email worker core: content chunking, embed batching,
rate-limited fetch retry, Retry-After interpretation, HTML entity decoding and
the empty-body placeholder path.  Strings are modelled as lists of characters;
JavaScript numbers that only ever hold integer or simple decimal values are
modelled as naturals or rationals, with NaN modelled as the none case of an
Option.  Every definition is a direct translation of the corresponding
JavaScript in src/src/index.js or the revision file with the DiscordUtils
object (referred to below as the DiscordUtils revision).
-/

namespace CfEmail

/-! ### Constants (src/src/index.js lines 25-26, CONFIG in the DiscordUtils revision) -/

def MAX_RETRIES : Nat := 3

def DEFAULT_RETRY_AFTER_MS : ℚ := 1000

def MAX_EMBEDS_PER_MESSAGE : Nat := 10

def MAX_TOTAL_EMBED_SIZE : Nat := 6000

def MAX_DESCRIPTION_LENGTH : Nat := 4096

def MIN_CHUNK_MERGE_THRESHOLD : Nat := 100

/-! ### JavaScript string primitives used by the worker -/

/-- Characters removed by the JavaScript String.prototype.trim method
(restricted to the ASCII whitespace characters; the worker never produces the
exotic Unicode space characters that trim also removes). -/
def isJsWhitespace (c : Char) : Bool :=
  c = ' ' || c = '\t' || c = '\n' || c = '\r' || c = '\x0B' || c = '\x0C'

/-- JavaScript text.trim(): drop whitespace from both ends. -/
def jsTrim (s : List Char) : List Char :=
  ((s.dropWhile isJsWhitespace).reverse.dropWhile isJsWhitespace).reverse

/-- JavaScript chunk.lastIndexOf of a single space character: the index of the
last occurrence of the space character, none when there is no space
(JavaScript returns -1 in that case; the -1 case is modelled as none). -/
def lastSpaceIndex : List Char → Option Nat
  | [] => none
  | c :: rest =>
    match lastSpaceIndex rest with
    | some i => some (i + 1)
    | none => if c = ' ' then some 0 else none

/-! ### The content chunking loops

src/src/index.js lines 504-516 (the while loop in sendEmbedMessage) and the
while loop of DiscordUtils.splitContentIntoEmbeds in the DiscordUtils
revision.  Both compute a prefix of up to maxLength characters, cut it back
to the last space when that space lies strictly past 80 percent of the
prefix length, emit the chunk and continue on the trimmed remainder; the
DiscordUtils revision additionally applies a small-remainder merge rule.

The JavaScript comparison lastSpaceIndex > chunk.length * 0.8 is modelled as
4 * length < 5 * i.  This is exact: both sides compare an integer i with
0.8 * L; the double closest to 0.8 exceeds 4/5 by less than 1e-16, so for
any list length L the product rounds to a double that lies strictly between
the two integers surrounding 4*L/5 (or equals 4*L/5 when 5 divides L), and
the integer comparison is therefore identical to the exact rational one. -/

/-- One cut step: chunk = content.substring(0, maxLength), cut back to the
last space when it lies strictly past 80 percent of the prefix length. -/
def cutChunk (ml : Nat) (content : List Char) : List Char :=
  let chunk0 := content.take ml
  match lastSpaceIndex chunk0 with
  | some i => if 4 * chunk0.length < 5 * i then chunk0.take i else chunk0
  | none => chunk0

/-- The remaining content after emitting a chunk:
content.substring(chunk.length).trim(). -/
def nextContent (ml : Nat) (content : List Char) : List Char :=
  jsTrim (content.drop (cutChunk ml content).length)

/-- The while loop of src/src/index.js lines 504-516, written with explicit
fuel so that it stays computable; none models a loop that did not finish
within the given number of iterations. -/
def chunkGo (ml : Nat) : Nat → List Char → Option (List (List Char))
  | _, [] => some []
  | 0, _ :: _ => none
  | fuel + 1, c :: cs =>
    match chunkGo ml fuel (nextContent ml (c :: cs)) with
    | some bs => some (cutChunk ml (c :: cs) :: bs)
    | none => none

/-- The content chunking loop of sendEmbedMessage (src/src/index.js lines
504-516), run with fuel equal to the content length (proved sufficient). -/
def chunkEmailContent (ml : Nat) (content : List Char) : Option (List (List Char)) :=
  chunkGo ml content.length content

/-- The while loop of DiscordUtils.splitContentIntoEmbeds in the DiscordUtils
revision, with the small-remainder merge rule: when the newly computed
remainder is non-empty, shorter than the merge threshold and
chunk.length + nextChunk.length ≤ maxLength, the remainder is appended to the
current chunk joined by a single space and the loop terminates. -/
def chunkMergeGo (ml threshold : Nat) : Nat → List Char → Option (List (List Char))
  | _, [] => some []
  | 0, _ :: _ => none
  | fuel + 1, c :: cs =>
    let chunk := cutChunk ml (c :: cs)
    let nextChunk := nextContent ml (c :: cs)
    if 0 < nextChunk.length ∧ nextChunk.length < threshold ∧
        chunk.length + nextChunk.length ≤ ml then
      some [chunk ++ ' ' :: nextChunk]
    else
      match chunkMergeGo ml threshold fuel nextChunk with
      | some bs => some (chunk :: bs)
      | none => none

/-- The remaining-content loop of DiscordUtils.splitContentIntoEmbeds (the
DiscordUtils revision, lines 192-224), run with fuel equal to the content
length. -/
def splitContentIntoEmbeds (ml threshold : Nat) (content : List Char) :
    Option (List (List Char)) :=
  chunkMergeGo ml threshold content.length content

/-! ### Embed batching

sendEmbedsWithBatching (src/src/index.js lines 291-330) and
DiscordUtils.splitEmbedsIntoBatches (DiscordUtils revision lines 234-263)
run the same accumulation loop; the former sends each batch as it is closed,
the latter returns the list of batches.  The size of an embed is
JSON.stringify(embed).length in the source; serialization is external to the
worker, so the loop is modelled generically over a size function. -/

def batchGo {α : Type} (size : α → Nat) :
    List α → List (List α) → List α → Nat → List (List α)
  | [], batches, currentBatch, _ =>
    if 0 < currentBatch.length then batches ++ [currentBatch] else batches
  | e :: rest, batches, currentBatch, currentTotalSize =>
    if MAX_TOTAL_EMBED_SIZE < currentTotalSize + size e ∨
        MAX_EMBEDS_PER_MESSAGE ≤ currentBatch.length then
      batchGo size rest (batches ++ [currentBatch]) [e] (size e)
    else
      batchGo size rest batches (currentBatch ++ [e]) (currentTotalSize + size e)

/-- The batching loop shared by sendEmbedsWithBatching and
DiscordUtils.splitEmbedsIntoBatches: the list of payloads that are sent. -/
def splitEmbedsIntoBatches {α : Type} (size : α → Nat) (embeds : List α) :
    List (List α) :=
  batchGo size embeds [] [] 0

/-! ### Rate limited fetch (src/src/index.js lines 44-64) -/

/-- The two fields of a fetch response that fetchWithRateLimit inspects: the
status code and the Retry-After header (none when the header is absent). -/
structure JsResponse where
  status : Nat
  retryAfter : Option String
  deriving DecidableEq

/-- ECMAScript parseFloat restricted to the simple decimal literals that a
Retry-After header can carry: optional leading whitespace, optional sign,
decimal digits with an optional fractional part.  none models NaN (no
numeric literal at the start of the string). -/
def digitsVal : List Char → Nat
  | [] => 0
  | ds => ds.foldl (fun acc c => acc * 10 + (c.toNat - 48)) 0

def jsParseFloat (s : String) : Option ℚ :=
  let l := s.data.dropWhile isJsWhitespace
  let signAndRest : ℚ × List Char :=
    match l with
    | '-' :: rest => (-1, rest)
    | '+' :: rest => (1, rest)
    | _ => (1, l)
  let intPart := signAndRest.2.takeWhile Char.isDigit
  let afterInt := signAndRest.2.dropWhile Char.isDigit
  let fracPart :=
    match afterInt with
    | '.' :: r => r.takeWhile Char.isDigit
    | _ => []
  if intPart = [] ∧ fracPart = [] then none
  else
    some (signAndRest.1 *
      ((digitsVal intPart : ℚ) + (digitsVal fracPart : ℚ) / ((10 : ℚ) ^ fracPart.length)))

/-- Lines 48-51: retryAfter ? parseFloat(retryAfter) * 1000 :
DEFAULT_RETRY_AFTER_MS.  A present but empty header string is falsy in
JavaScript and also selects the default; a present, non-empty but unparsable
header gives NaN * 1000 = NaN, modelled as none. -/
def retryAfterMs (retryAfter : Option String) : Option ℚ :=
  match retryAfter with
  | none => some DEFAULT_RETRY_AFTER_MS
  | some s =>
    if s = "" then some DEFAULT_RETRY_AFTER_MS
    else (jsParseFloat s).map (fun q => q * 1000)

/-- Observable events of fetchWithRateLimit: the i-th fetch call, and a sleep
of the given duration (none models a NaN duration). -/
inductive FetchEvent where
  | call (i : Nat)
  | sleep (ms : Option ℚ)
  deriving DecidableEq

def FetchEvent.isCall : FetchEvent → Bool
  | .call _ => true
  | .sleep _ => false

def FetchEvent.isSleep : FetchEvent → Bool
  | .call _ => false
  | .sleep _ => true

/-- The retry loop of fetchWithRateLimit (lines 47-61): while the response
status is 429 and retries remain, sleep and fetch again; afterwards a 429
status raises the rate limit error.  The fetch argument gives the response
to the i-th call. -/
def fetchLoopGo (fetch : Nat → JsResponse) :
    Nat → Nat → JsResponse → List FetchEvent →
    List FetchEvent × Except String JsResponse
  | 0, _, response, trace =>
    if response.status = 429 then
      (trace, Except.error "Rate limit exceeded, maximum retries reached.")
    else (trace, Except.ok response)
  | retries + 1, i, response, trace =>
    if response.status = 429 then
      fetchLoopGo fetch retries (i + 1) (fetch (i + 1))
        (trace ++ [FetchEvent.sleep (retryAfterMs response.retryAfter),
                   FetchEvent.call (i + 1)])
    else (trace, Except.ok response)

/-- fetchWithRateLimit with the default retry budget (src/src/index.js line
44): an initial fetch followed by the retry loop. -/
def fetchWithRateLimit (fetch : Nat → JsResponse) :
    List FetchEvent × Except String JsResponse :=
  fetchLoopGo fetch MAX_RETRIES 0 (fetch 0) [FetchEvent.call 0]

/-! ### HTML entity decoding (src/src/index.js lines 72-83) -/

/-- The seven own properties of the entities object literal of
decodeHtmlEntities. -/
def entityTable (name : List Char) : Option (List Char) :=
  if name = "nbsp".data then some [' ']
  else if name = "amp".data then some ['&']
  else if name = "lt".data then some ['<']
  else if name = "gt".data then some ['>']
  else if name = "quot".data then some ['"']
  else if name = "apos".data then some [Char.ofNat 39]
  else if name = "#39".data then some [Char.ofNat 39]
  else none

/-- The property names a plain object literal inherits from
Object.prototype in V8, the runtime of Cloudflare Workers.  The lookup in
decodeHtmlEntities indexes the entities object with the captured name, so
these names resolve through the prototype chain to functions or to the
prototype object itself; all of those values are truthy, so the replacement
callback returns them instead of the match and String.replace coerces them
to their implementation defined string form. -/
def objectProtoMemberNames : List (List Char) :=
  ["constructor".data, "hasOwnProperty".data, "isPrototypeOf".data,
    "propertyIsEnumerable".data, "toLocaleString".data, "toString".data,
    "valueOf".data, "__defineGetter__".data, "__defineSetter__".data,
    "__lookupGetter__".data, "__lookupSetter__".data, "__proto__".data]

/-- The property access on the entities object: an own table entry when the
name is one of the seven literal keys, otherwise the truthy inherited
Object.prototype member for the names above (protoVal abstracts the
implementation defined string coercion of that member), otherwise undefined,
modelled as none (falsy, so the callback keeps the match verbatim). -/
def entitiesLookup (protoVal : List Char → List Char) (name : List Char) :
    Option (List Char) :=
  match entityTable name with
  | some r => some r
  | none =>
    if name ∈ objectProtoMemberNames then some (protoVal name) else none

/-- A concrete stand in for the implementation defined string coercion of
the inherited Object.prototype members, used to state closed evaluations;
in V8 the coercion of the inherited functions is their source text and the
coercion of the prototype object is its bracketed object tag. -/
def protoStub (name : List Char) : List Char :=
  "[inherited ".data ++ name ++ "]".data

/-- Split a list at the first semicolon: some (before, after) when a
semicolon exists.  This is how the regular expression of decodeHtmlEntities
delimits a candidate entity name: the character class excluding semicolons
is greedy, so the name extends exactly to the next semicolon. -/
def splitAtSemicolon : List Char → Option (List Char × List Char)
  | [] => none
  | c :: rest =>
    if c = ';' then some ([], rest)
    else
      match splitAtSemicolon rest with
      | some (name, rest') => some (c :: name, rest')
      | none => none

/-- The global regex replace of decodeHtmlEntities, scanning left to right
with fuel (none of the replacement cases lengthens the remaining input, so
fuel equal to the input length is sufficient and is proved so below).  At an
ampersand the candidate name runs to the next semicolon; a non-empty
candidate whose property access yields a truthy value (an own table entry
or an inherited Object.prototype member) is replaced by that value, any
other non-empty candidate is kept verbatim with scanning resuming after its
semicolon; when no semicolon follows, or the candidate is empty, the regex
does not match at this position and scanning resumes at the next
character. -/
def decodeGo (protoVal : List Char → List Char) : Nat → List Char → List Char
  | 0, s => s
  | _ + 1, [] => []
  | fuel + 1, c :: rest =>
    if c = '&' then
      match splitAtSemicolon rest with
      | some (name, rest') =>
        if name = [] then c :: decodeGo protoVal fuel rest
        else
          match entitiesLookup protoVal name with
          | some repl => repl ++ decodeGo protoVal fuel rest'
          | none => c :: name ++ ';' :: decodeGo protoVal fuel rest'
      | none => c :: decodeGo protoVal fuel rest
    else c :: decodeGo protoVal fuel rest

/-- decodeHtmlEntities (src/src/index.js lines 72-83), parameterized over
the implementation defined string coercion of the inherited
Object.prototype members. -/
def decodeHtmlEntities (protoVal : List Char → List Char) (s : List Char) :
    List Char :=
  decodeGo protoVal s.length s

/-! ### The empty-body placeholder path (src/src/index.js lines 86-100 and
452-454) -/

def errorExtractPlaceholder : List Char := "(Error extracting text content)".data

def noTextPlaceholder : List Char := "(No text content)".data

/-- extractTextFromHtml applied to an optional html field.  When the field is
absent (undefined in JavaScript), calling .replace on undefined throws
inside the try block and the catch returns the error placeholder (lines
96-99).  When the field is present the regex pipeline runs; the pipeline is
external to the claims settled here and is passed as a parameter. -/
def extractTextFromHtml (pipeline : List Char → List Char) :
    Option (List Char) → List Char
  | none => errorExtractPlaceholder
  | some h => pipeline h

/-- Lines 453-454: parsedEmail.text || extractTextFromHtml(parsedEmail.html),
then || "(No text content)".  An absent field is none; the JavaScript
or-operator treats the empty string as falsy. -/
def emailTextContent (pipeline : List Char → List Char)
    (text html : Option (List Char)) : List Char :=
  let t1 :=
    match text with
    | some s => if s = [] then extractTextFromHtml pipeline html else s
    | none => extractTextFromHtml pipeline html
  if t1 = [] then noTextPlaceholder else t1

/-! ### Concrete inputs used to evaluate the loops at the code constants -/

/-- Four thousand letters, one space, 96 letters: length 4097.  The 4096 character
prefix is cut back to the space, the 96 letter remainder is below the merge
threshold and 4000 + 96 = 4096 characters fit, so the merge rule fires. -/
def mergeOverflowInput : List Char :=
  List.replicate 4000 'a' ++ ' ' :: List.replicate 96 'b'

/-- Four thousand letters, one space, 90 newlines, then 90 letters, one space and 5
letters.  The trim after the cut removes the newlines, so the 96 character
remainder contains an interior space and the merge rule fires on it. -/
def mergeCountInput : List Char :=
  List.replicate 4000 'a' ++
    ' ' :: (List.replicate 90 '\n' ++ (List.replicate 90 'b' ++ ' ' :: List.replicate 5 'c'))

/-- The input of the word boundary test of the specification. -/
def wordBoundaryHitInput : List Char :=
  List.replicate 90 'a' ++ ' ' :: List.replicate 20 'b'

/-- An input whose 100 character prefix has its last space exactly at 80
percent of the prefix length. -/
def wordBoundaryMissInput : List Char :=
  List.replicate 80 'a' ++ ' ' :: List.replicate 39 'b'

end CfEmail

namespace CfEmail

/-! ### Lemmas about lastSpaceIndex -/

theorem lastSpaceIndex_eq_none {l : List Char} (h : ∀ c ∈ l, c ≠ ' ') :
    lastSpaceIndex l = none := by
  induction l with
  | nil => rfl
  | cons a l ih =>
    have ha : a ≠ ' ' := h a (by simp)
    have hl := ih (fun c hc => h c (by simp [hc]))
    simp [lastSpaceIndex, hl, ha]

theorem lastSpaceIndex_replicate {a : Char} (h : a ≠ ' ') (n : Nat) :
    lastSpaceIndex (List.replicate n a) = none :=
  lastSpaceIndex_eq_none (by intro c hc; rw [List.eq_of_mem_replicate hc]; exact h)

theorem lastSpaceIndex_cons_space {l : List Char} (h : lastSpaceIndex l = none) :
    lastSpaceIndex (' ' :: l) = some 0 := by
  simp [lastSpaceIndex, h]

theorem lastSpaceIndex_append_none {l₂ : List Char} (h : lastSpaceIndex l₂ = none)
    (l₁ : List Char) : lastSpaceIndex (l₁ ++ l₂) = lastSpaceIndex l₁ := by
  induction l₁ with
  | nil => simpa using h
  | cons a l ih => simp only [List.cons_append, lastSpaceIndex, List.append_eq, ih]

theorem lastSpaceIndex_append_some {l₂ : List Char} {i : Nat}
    (h : lastSpaceIndex l₂ = some i) (l₁ : List Char) :
    lastSpaceIndex (l₁ ++ l₂) = some (l₁.length + i) := by
  induction l₁ with
  | nil => simpa using h
  | cons a l ih =>
    simp only [List.cons_append, lastSpaceIndex, List.append_eq, ih, List.length_cons]
    congr 1
    omega

/-! ### Lemmas about jsTrim -/

theorem jsTrim_nil : jsTrim [] = [] := rfl

theorem jsTrim_length_le (l : List Char) : (jsTrim l).length ≤ l.length := by
  unfold jsTrim
  calc (((l.dropWhile isJsWhitespace).reverse.dropWhile isJsWhitespace).reverse).length
      = ((l.dropWhile isJsWhitespace).reverse.dropWhile isJsWhitespace).length :=
        List.length_reverse _
    _ ≤ (l.dropWhile isJsWhitespace).reverse.length :=
        (List.dropWhile_sublist isJsWhitespace).length_le
    _ = (l.dropWhile isJsWhitespace).length := List.length_reverse _
    _ ≤ l.length := (List.dropWhile_sublist isJsWhitespace).length_le

theorem jsTrim_cons_of_ws {c : Char} (h : isJsWhitespace c = true) (l : List Char) :
    jsTrim (c :: l) = jsTrim l := by
  simp [jsTrim, List.dropWhile_cons, h]

theorem jsTrim_append_ws {w : List Char} (hw : ∀ c ∈ w, isJsWhitespace c = true)
    (l : List Char) : jsTrim (w ++ l) = jsTrim l := by
  induction w with
  | nil => rfl
  | cons a w ih =>
    rw [List.cons_append, jsTrim_cons_of_ws (hw a (by simp))]
    exact ih (fun c hc => hw c (by simp [hc]))

theorem dropWhile_eq_self_of_head {p : Char → Bool} {l : List Char}
    (h : ∀ c, l.head? = some c → p c = false) : List.dropWhile p l = l := by
  cases l with
  | nil => rfl
  | cons a l => simp [List.dropWhile_cons, h a rfl]

theorem jsTrim_eq_self {l : List Char}
    (h1 : ∀ c, l.head? = some c → isJsWhitespace c = false)
    (h2 : ∀ c, l.getLast? = some c → isJsWhitespace c = false) : jsTrim l = l := by
  unfold jsTrim
  rw [dropWhile_eq_self_of_head h1]
  rw [dropWhile_eq_self_of_head (by intro c hc; exact h2 c (by rwa [List.head?_reverse] at hc))]
  exact List.reverse_reverse l

theorem jsTrim_replicate {a : Char} (h : isJsWhitespace a = false) (n : Nat) :
    jsTrim (List.replicate n a) = List.replicate n a := by
  apply jsTrim_eq_self
  · intro c hc
    cases n with
    | zero => simp at hc
    | succ m =>
      rw [List.replicate_succ] at hc
      simp at hc
      subst hc
      exact h
  · intro c hc
    have hm := List.mem_of_mem_getLast? hc
    rw [List.eq_of_mem_replicate hm]
    exact h

/-! ### Lemmas about cutChunk and nextContent -/

theorem cutChunk_cut {ml i : Nat} {content : List Char}
    (h : lastSpaceIndex (content.take ml) = some i)
    (hlt : 4 * (content.take ml).length < 5 * i) :
    cutChunk ml content = (content.take ml).take i := by
  simp only [cutChunk, h]
  rw [if_pos hlt]

theorem cutChunk_of_none {ml : Nat} {content : List Char}
    (h : lastSpaceIndex (content.take ml) = none) :
    cutChunk ml content = content.take ml := by
  simp only [cutChunk, h]

theorem cutChunk_length_le (ml : Nat) (content : List Char) :
    (cutChunk ml content).length ≤ ml := by
  have h0 : (content.take ml).length ≤ ml := by
    simp only [List.length_take]
    omega
  simp only [cutChunk]
  split
  · split
    · simp only [List.length_take] at h0 ⊢
      omega
    · exact h0
  · exact h0

theorem cutChunk_pos {ml : Nat} {content : List Char} (hml : 0 < ml)
    (hne : content ≠ []) : 0 < (cutChunk ml content).length := by
  have hcl : 0 < content.length := List.length_pos.mpr hne
  have h0 : 0 < (content.take ml).length := by
    simp only [List.length_take]
    omega
  simp only [cutChunk]
  split
  · rename_i i heq
    split
    · rename_i hlt
      simp only [List.length_take] at h0 hlt ⊢
      omega
    · exact h0
  · exact h0

theorem nextContent_length_lt {ml : Nat} {content : List Char} (hml : 0 < ml)
    (hne : content ≠ []) : (nextContent ml content).length < content.length := by
  have h1 := cutChunk_pos hml hne
  have h2 := jsTrim_length_le (content.drop (cutChunk ml content).length)
  have h3 : (content.drop (cutChunk ml content).length).length
      = content.length - (cutChunk ml content).length := List.length_drop _ _
  have hcl : 0 < content.length := List.length_pos.mpr hne
  unfold nextContent
  omega

end CfEmail

namespace CfEmail

/-! ### Soundness of the fuel for the chunking loops: fuel equal to the
content length always suffices, and extra fuel does not change the result. -/

theorem chunkGo_sound {ml : Nat} (hml : 0 < ml) :
    ∀ fuel content, content.length ≤ fuel →
      chunkGo ml fuel content = chunkEmailContent ml content ∧
      (chunkGo ml fuel content).isSome := by
  intro fuel
  induction fuel using Nat.strong_induction_on with
  | _ fuel ih =>
    intro content hlen
    cases content with
    | nil =>
      cases fuel <;> simp [chunkGo, chunkEmailContent]
    | cons c cs =>
      cases fuel with
      | zero => simp at hlen
      | succ f =>
        have hne : (c :: cs) ≠ [] := by simp
        have hlt := nextContent_length_lt hml hne
        simp only [List.length_cons] at hlen hlt
        have h1 := ih f (by omega) (nextContent ml (c :: cs)) (by omega)
        have h2 := ih cs.length (by omega) (nextContent ml (c :: cs)) (by omega)
        obtain ⟨bs, hbs⟩ := Option.isSome_iff_exists.mp h1.2
        have hcan : chunkGo ml cs.length (nextContent ml (c :: cs)) = some bs := by
          rw [h2.1, ← h1.1, hbs]
        constructor
        · show chunkGo ml (f + 1) (c :: cs) = chunkGo ml (cs.length + 1) (c :: cs)
          simp only [chunkGo, hbs, hcan]
        · simp only [chunkGo, hbs, Option.isSome_some]

theorem chunkEmailContent_isSome {ml : Nat} (hml : 0 < ml) (content : List Char) :
    ∃ bs, chunkEmailContent ml content = some bs := by
  have h := (chunkGo_sound hml content.length content (le_refl _)).2
  exact Option.isSome_iff_exists.mp (by rwa [(chunkGo_sound hml content.length content (le_refl _)).1] at h)

theorem chunkGo_eq_chunkEmailContent {ml fuel : Nat} {content : List Char}
    (hml : 0 < ml) (hfuel : content.length ≤ fuel) :
    chunkGo ml fuel content = chunkEmailContent ml content :=
  (chunkGo_sound hml fuel content hfuel).1

theorem chunkEmailContent_nil (ml : Nat) : chunkEmailContent ml [] = some [] := by
  simp [chunkEmailContent, chunkGo]

/-- One iteration of the sendEmbedMessage chunking loop. -/
theorem chunkEmailContent_cons {ml : Nat} {content : List Char} (hml : 0 < ml)
    (hne : content ≠ []) :
    ∃ bs, chunkEmailContent ml (nextContent ml content) = some bs ∧
      chunkEmailContent ml content = some (cutChunk ml content :: bs) := by
  obtain ⟨c, cs, rfl⟩ := List.exists_cons_of_ne_nil hne
  obtain ⟨bs, hbs⟩ := chunkEmailContent_isSome hml (nextContent ml (c :: cs))
  refine ⟨bs, hbs, ?_⟩
  have hlt := nextContent_length_lt hml hne
  simp only [List.length_cons] at hlt
  have hstep : chunkGo ml cs.length (nextContent ml (c :: cs)) = some bs := by
    rw [chunkGo_eq_chunkEmailContent hml (by omega)]
    exact hbs
  show chunkGo ml (cs.length + 1) (c :: cs) = some (cutChunk ml (c :: cs) :: bs)
  simp only [chunkGo, hstep]

/-- Every block of the sendEmbedMessage chunking loop is at most ml long. -/
theorem chunkGo_length_le {ml : Nat} :
    ∀ fuel content bs, chunkGo ml fuel content = some bs →
      ∀ b ∈ bs, b.length ≤ ml := by
  intro fuel
  induction fuel with
  | zero =>
    intro content bs h b hb
    cases content with
    | nil => simp [chunkGo] at h; subst h; simp at hb
    | cons c cs => simp [chunkGo] at h
  | succ f ih =>
    intro content bs h b hb
    cases content with
    | nil => simp [chunkGo] at h; subst h; simp at hb
    | cons c cs =>
      rw [show chunkGo ml (f + 1) (c :: cs)
          = match chunkGo ml f (nextContent ml (c :: cs)) with
            | some bs => some (cutChunk ml (c :: cs) :: bs)
            | none => none from rfl] at h
      cases hrec : chunkGo ml f (nextContent ml (c :: cs)) with
      | none => rw [hrec] at h; simp at h
      | some bs' =>
        rw [hrec] at h
        simp only [Option.some.injEq] at h
        subst h
        rcases List.mem_cons.mp hb with rfl | hb'
        · exact cutChunk_length_le ml (c :: cs)
        · exact ih _ bs' hrec b hb'

/-- Every block of the sendEmbedMessage chunking loop is non-empty. -/
theorem chunkGo_length_pos {ml : Nat} (hml : 0 < ml) :
    ∀ fuel content bs, chunkGo ml fuel content = some bs →
      ∀ b ∈ bs, 0 < b.length := by
  intro fuel
  induction fuel with
  | zero =>
    intro content bs h b hb
    cases content with
    | nil => simp [chunkGo] at h; subst h; simp at hb
    | cons c cs => simp [chunkGo] at h
  | succ f ih =>
    intro content bs h b hb
    cases content with
    | nil => simp [chunkGo] at h; subst h; simp at hb
    | cons c cs =>
      rw [show chunkGo ml (f + 1) (c :: cs)
          = match chunkGo ml f (nextContent ml (c :: cs)) with
            | some bs => some (cutChunk ml (c :: cs) :: bs)
            | none => none from rfl] at h
      cases hrec : chunkGo ml f (nextContent ml (c :: cs)) with
      | none => rw [hrec] at h; simp at h
      | some bs' =>
        rw [hrec] at h
        simp only [Option.some.injEq] at h
        subst h
        rcases List.mem_cons.mp hb with rfl | hb'
        · exact cutChunk_pos hml (by simp)
        · exact ih _ bs' hrec b hb'

/-- The merge branch of the DiscordUtils splitContentIntoEmbeds loop: when the
newly computed remainder is non-empty, below the merge threshold and fits
together with the current chunk in ml characters, the loop emits the chunk
and the remainder joined by a single space and terminates. -/
theorem splitContentIntoEmbeds_merge_step {ml threshold : Nat}
    {content chunk next : List Char}
    (hchunk : chunk = cutChunk ml content) (hnext : next = nextContent ml content)
    (h1 : next ≠ []) (h2 : next.length < threshold)
    (h3 : chunk.length + next.length ≤ ml) :
    splitContentIntoEmbeds ml threshold content = some [chunk ++ ' ' :: next] := by
  have hne : content ≠ [] := by
    intro hc
    subst hc
    simp [nextContent, jsTrim_nil] at hnext
    exact h1 hnext
  obtain ⟨c, cs, rfl⟩ := List.exists_cons_of_ne_nil hne
  have hcond : 0 < (nextContent ml (c :: cs)).length ∧
      (nextContent ml (c :: cs)).length < threshold ∧
      (cutChunk ml (c :: cs)).length + (nextContent ml (c :: cs)).length ≤ ml := by
    refine ⟨?_, ?_, ?_⟩
    · rw [← hnext]; exact List.length_pos.mpr h1
    · rw [← hnext]; exact h2
    · rw [← hnext, ← hchunk]; exact h3
  show chunkMergeGo ml threshold (cs.length + 1) (c :: cs) = some [chunk ++ ' ' :: next]
  rw [show chunkMergeGo ml threshold (cs.length + 1) (c :: cs)
      = if 0 < (nextContent ml (c :: cs)).length ∧
            (nextContent ml (c :: cs)).length < threshold ∧
            (cutChunk ml (c :: cs)).length + (nextContent ml (c :: cs)).length ≤ ml then
          some [cutChunk ml (c :: cs) ++ ' ' :: nextContent ml (c :: cs)]
        else
          match chunkMergeGo ml threshold cs.length (nextContent ml (c :: cs)) with
          | some bs => some (cutChunk ml (c :: cs) :: bs)
          | none => none from rfl]
  rw [if_pos hcond, ← hchunk, ← hnext]

end CfEmail

namespace CfEmail

/-! ### Invariants of the embed batching loop -/

theorem batchGo_count {α : Type} (size : α → Nat) :
    ∀ es acc cur sz, (∀ b ∈ acc, b.length ≤ MAX_EMBEDS_PER_MESSAGE) →
      cur.length ≤ MAX_EMBEDS_PER_MESSAGE →
      ∀ b ∈ batchGo size es acc cur sz, b.length ≤ MAX_EMBEDS_PER_MESSAGE := by
  intro es
  induction es with
  | nil =>
    intro acc cur sz hacc hcur b hb
    simp only [batchGo] at hb
    split at hb
    · rcases List.mem_append.mp hb with h | h
      · exact hacc b h
      · rw [List.mem_singleton.mp h]; exact hcur
    · exact hacc b hb
  | cons e es ih =>
    intro acc cur sz hacc hcur b hb
    simp only [batchGo] at hb
    split at hb
    · refine ih _ _ _ ?_ ?_ b hb
      · intro b' hb'
        rcases List.mem_append.mp hb' with h | h
        · exact hacc b' h
        · rw [List.mem_singleton.mp h]; exact hcur
      · simp [MAX_EMBEDS_PER_MESSAGE]
    · rename_i hcond
      refine ih _ _ _ hacc ?_ b hb
      have : ¬ MAX_EMBEDS_PER_MESSAGE ≤ cur.length := by tauto
      simp only [List.length_append, List.length_singleton]
      omega

theorem batchGo_sum {α : Type} (size : α → Nat) :
    ∀ es acc cur sz, (∀ e ∈ es, size e ≤ MAX_TOTAL_EMBED_SIZE) →
      (∀ b ∈ acc, (b.map size).sum ≤ MAX_TOTAL_EMBED_SIZE) →
      (cur.map size).sum = sz → sz ≤ MAX_TOTAL_EMBED_SIZE →
      ∀ b ∈ batchGo size es acc cur sz, (b.map size).sum ≤ MAX_TOTAL_EMBED_SIZE := by
  intro es
  induction es with
  | nil =>
    intro acc cur sz hes hacc hcursz hsz b hb
    simp only [batchGo] at hb
    split at hb
    · rcases List.mem_append.mp hb with h | h
      · exact hacc b h
      · rw [List.mem_singleton.mp h, hcursz]; exact hsz
    · exact hacc b hb
  | cons e es ih =>
    intro acc cur sz hes hacc hcursz hsz b hb
    have hse : size e ≤ MAX_TOTAL_EMBED_SIZE := hes e (by simp)
    have hes' : ∀ x ∈ es, size x ≤ MAX_TOTAL_EMBED_SIZE := fun x hx => hes x (by simp [hx])
    simp only [batchGo] at hb
    split at hb
    · refine ih _ _ _ hes' ?_ (by simp) hse b hb
      intro b' hb'
      rcases List.mem_append.mp hb' with h | h
      · exact hacc b' h
      · rw [List.mem_singleton.mp h, hcursz]; exact hsz
    · rename_i hcond
      have hfit : ¬ MAX_TOTAL_EMBED_SIZE < sz + size e := by tauto
      refine ih _ _ _ hes' hacc ?_ (by omega) b hb
      simp [hcursz]

theorem batchGo_ne_nil {α : Type} (size : α → Nat) :
    ∀ es acc cur sz, (∀ e ∈ es, size e ≤ MAX_TOTAL_EMBED_SIZE) →
      (∀ b ∈ acc, b ≠ []) → (cur = [] → sz = 0) →
      ∀ b ∈ batchGo size es acc cur sz, b ≠ [] := by
  intro es
  induction es with
  | nil =>
    intro acc cur sz hes hacc hcur b hb
    simp only [batchGo] at hb
    split at hb
    · rename_i hlen
      rcases List.mem_append.mp hb with h | h
      · exact hacc b h
      · rw [List.mem_singleton.mp h]
        intro hnil
        rw [hnil] at hlen
        simp at hlen
    · exact hacc b hb
  | cons e es ih =>
    intro acc cur sz hes hacc hcur b hb
    have hse : size e ≤ MAX_TOTAL_EMBED_SIZE := hes e (by simp)
    have hes' : ∀ x ∈ es, size x ≤ MAX_TOTAL_EMBED_SIZE := fun x hx => hes x (by simp [hx])
    simp only [batchGo] at hb
    split at hb
    · rename_i hcond
      refine ih _ _ _ hes' ?_ (by simp) b hb
      intro b' hb'
      rcases List.mem_append.mp hb' with h | h
      · exact hacc b' h
      · rw [List.mem_singleton.mp h]
        intro hnil
        rw [hnil] at hcur
        rw [hcur rfl] at hcond
        rcases hcond with h6 | h10
        · simp only [MAX_TOTAL_EMBED_SIZE] at h6 hse; omega
        · rw [hnil] at h10; simp [MAX_EMBEDS_PER_MESSAGE] at h10
    · refine ih _ _ _ hes' hacc ?_ b hb
      intro hnil
      simp at hnil

end CfEmail

namespace CfEmail

/-! ### Lemmas about the entity decoding scan -/

theorem splitAtSemicolon_eq :
    ∀ {l nm r : List Char}, splitAtSemicolon l = some (nm, r) →
      l = nm ++ ';' :: r ∧ ';' ∉ nm := by
  intro l
  induction l with
  | nil => intro nm r h; simp [splitAtSemicolon] at h
  | cons c rest ih =>
    intro nm r h
    by_cases hc : c = ';'
    · subst hc
      simp [splitAtSemicolon] at h
      obtain ⟨rfl, rfl⟩ := h
      simp
    · cases hrec : splitAtSemicolon rest with
      | none => simp [splitAtSemicolon, hc, hrec] at h
      | some p =>
        obtain ⟨nm', r'⟩ := p
        simp only [splitAtSemicolon, if_neg hc, hrec, Option.some.injEq] at h
        simp only [Prod.mk.injEq] at h
        obtain ⟨h1, h2⟩ := h
        subst h1
        subst h2
        obtain ⟨he, hn⟩ := ih hrec
        refine ⟨by rw [List.cons_append, ← he], ?_⟩
        intro hmem
        rcases List.mem_cons.mp hmem with h1 | h1
        · exact hc h1.symm
        · exact hn h1
  
theorem splitAtSemicolon_append {nm : List Char} (h : ';' ∉ nm) (r : List Char) :
    splitAtSemicolon (nm ++ ';' :: r) = some (nm, r) := by
  induction nm with
  | nil => simp [splitAtSemicolon]
  | cons c nm ih =>
    have hc : ¬ c = ';' := by
      intro hcc
      exact h (by simp [hcc])
    have hn : ';' ∉ nm := fun hm => h (by simp [hm])
    simp only [List.cons_append, splitAtSemicolon, if_neg hc, List.append_eq, ih hn]

theorem decodeGo_eq (protoVal : List Char → List Char) :
    ∀ fuel s, s.length ≤ fuel →
      decodeGo protoVal fuel s = decodeHtmlEntities protoVal s := by
  intro fuel
  induction fuel using Nat.strong_induction_on with
  | _ fuel ih =>
    intro s hlen
    cases s with
    | nil => cases fuel <;> simp [decodeGo, decodeHtmlEntities]
    | cons c rest =>
      cases fuel with
      | zero => simp at hlen
      | succ f =>
        simp only [List.length_cons] at hlen
        have hr : rest.length ≤ f := by omega
        have base : decodeHtmlEntities protoVal (c :: rest)
            = decodeGo protoVal (rest.length + 1) (c :: rest) := by
          simp [decodeHtmlEntities]
        by_cases hc : c = '&'
        · subst hc
          cases hsplit : splitAtSemicolon rest with
          | none =>
            rw [base]
            simp only [decodeGo, if_pos rfl, hsplit]
            rw [ih f (by omega) rest hr, ih rest.length (by omega) rest (le_refl _)]
          | some p =>
            obtain ⟨nm, r'⟩ := p
            obtain ⟨heq, hnsemi⟩ := splitAtSemicolon_eq hsplit
            have hr' : r'.length ≤ rest.length := by
              rw [heq]
              simp
              omega
            rw [base]
            by_cases hnm : nm = []
            · simp only [decodeGo, if_pos rfl, hsplit, if_pos hnm]
              rw [ih f (by omega) rest hr, ih rest.length (by omega) rest (le_refl _)]
            · simp only [decodeGo, if_pos rfl, hsplit, if_neg hnm]
              cases htab : entitiesLookup protoVal nm with
              | some repl =>
                rw [ih f (by omega) r' (by omega), ih rest.length (by omega) r' hr']
                simp
              | none =>
                rw [ih f (by omega) r' (by omega), ih rest.length (by omega) r' hr']
                simp
        · rw [base]
          simp only [decodeGo, if_neg hc]
          rw [ih f (by omega) rest hr, ih rest.length (by omega) rest (le_refl _)]

theorem decodeHtmlEntities_no_amp {protoVal : List Char → List Char}
    {s : List Char} (h : '&' ∉ s) : decodeHtmlEntities protoVal s = s := by
  have main : ∀ fuel t, t.length ≤ fuel → '&' ∉ t → decodeGo protoVal fuel t = t := by
    intro fuel
    induction fuel with
    | zero =>
      intro t hlen ht
      cases t with
      | nil => rfl
      | cons a t => simp at hlen
    | succ f ih =>
      intro t hlen ht
      cases t with
      | nil => rfl
      | cons a t =>
        have ha : ¬ a = '&' := fun hh => ht (by simp [hh])
        simp only [decodeGo, if_neg ha]
        rw [ih t (by simp at hlen; omega) (fun hm => ht (by simp [hm]))]
  exact main s.length s (le_refl _) h

end CfEmail

namespace CfEmail

/-! ### Evaluating the cut and the remainder on the two long inputs -/

theorem mergeOverflow_take :
    mergeOverflowInput.take 4096
      = List.replicate 4000 'a' ++ ' ' :: List.replicate 95 'b' := by
  rw [show mergeOverflowInput
      = List.replicate 4000 'a' ++ ' ' :: List.replicate 96 'b' from rfl]
  rw [show (4096 : Nat) = (List.replicate 4000 'a').length + 96 by
    rw [List.length_replicate]]
  rw [List.take_append]
  rw [show (96 : Nat) = 95 + 1 from rfl]
  rw [List.take_succ_cons]
  rw [List.take_replicate]
  exact rfl

theorem mergeOverflow_cutChunk :
    cutChunk 4096 mergeOverflowInput = List.replicate 4000 'a' := by
  have hspace : lastSpaceIndex (mergeOverflowInput.take 4096) = some 4000 := by
    rw [mergeOverflow_take,
      lastSpaceIndex_append_some (lastSpaceIndex_cons_space (lastSpaceIndex_replicate (by decide) 95))]
    rw [List.length_replicate]
  have hcond : 4 * (mergeOverflowInput.take 4096).length < 5 * 4000 := by
    rw [mergeOverflow_take]
    simp only [List.length_append, List.length_replicate, List.length_cons]
    omega
  rw [cutChunk_cut hspace hcond, mergeOverflow_take]
  rw [List.take_append_of_le_length (by rw [List.length_replicate])]
  exact List.take_of_length_le (by rw [List.length_replicate])

theorem mergeOverflow_next :
    nextContent 4096 mergeOverflowInput = List.replicate 96 'b' := by
  unfold nextContent
  rw [mergeOverflow_cutChunk]
  rw [show mergeOverflowInput
      = List.replicate 4000 'a' ++ ' ' :: List.replicate 96 'b' from rfl]
  rw [List.drop_left]
  rw [jsTrim_cons_of_ws (by decide)]
  exact jsTrim_replicate (by decide) 96

theorem mergeCount_take :
    mergeCountInput.take 4096
      = List.replicate 4000 'a' ++
          ' ' :: (List.replicate 90 '\n' ++ List.replicate 5 'b') := by
  rw [show mergeCountInput
      = List.replicate 4000 'a' ++
          ' ' :: (List.replicate 90 '\n' ++ (List.replicate 90 'b' ++ ' ' :: List.replicate 5 'c'))
      from rfl]
  rw [show (4096 : Nat) = (List.replicate 4000 'a').length + 96 by
    rw [List.length_replicate]]
  rw [List.take_append]
  rw [show (96 : Nat) = 95 + 1 from rfl]
  rw [List.take_succ_cons]
  rw [show (95 : Nat) = (List.replicate 90 '\n').length + 5 by
    rw [List.length_replicate]]
  rw [List.take_append]
  rw [List.take_append_of_le_length (by rw [List.length_replicate]; omega)]
  rw [List.take_replicate]
  exact rfl

theorem mergeCount_cutChunk :
    cutChunk 4096 mergeCountInput = List.replicate 4000 'a' := by
  have hinner : lastSpaceIndex (List.replicate 90 '\n' ++ List.replicate 5 'b') = none := by
    rw [lastSpaceIndex_append_none (lastSpaceIndex_replicate (by decide) 5)]
    exact lastSpaceIndex_replicate (by decide) 90
  have hspace : lastSpaceIndex (mergeCountInput.take 4096) = some 4000 := by
    rw [mergeCount_take,
      lastSpaceIndex_append_some (lastSpaceIndex_cons_space hinner)]
    rw [List.length_replicate]
  have hcond : 4 * (mergeCountInput.take 4096).length < 5 * 4000 := by
    rw [mergeCount_take]
    simp only [List.length_append, List.length_replicate, List.length_cons]
    omega
  rw [cutChunk_cut hspace hcond, mergeCount_take]
  rw [List.take_append_of_le_length (by rw [List.length_replicate])]
  exact List.take_of_length_le (by rw [List.length_replicate])

theorem mergeCount_next :
    nextContent 4096 mergeCountInput
      = List.replicate 90 'b' ++ ' ' :: List.replicate 5 'c' := by
  unfold nextContent
  rw [mergeCount_cutChunk]
  rw [show mergeCountInput
      = List.replicate 4000 'a' ++
          ' ' :: (List.replicate 90 '\n' ++ (List.replicate 90 'b' ++ ' ' :: List.replicate 5 'c'))
      from rfl]
  rw [List.drop_left]
  rw [jsTrim_cons_of_ws (by decide)]
  rw [jsTrim_append_ws (by intro c hc; rw [List.eq_of_mem_replicate hc]; decide)]
  apply jsTrim_eq_self
  · intro c hc
    rw [show List.replicate 90 'b' ++ ' ' :: List.replicate 5 'c'
        = 'b' :: (List.replicate 89 'b' ++ ' ' :: List.replicate 5 'c') from rfl] at hc
    simp only [List.head?_cons, Option.some.injEq] at hc
    subst hc
    decide
  · intro c hc
    rw [List.getLast?_append] at hc
    rw [show (' ' :: List.replicate 5 'c').getLast? = some 'c' by decide] at hc
    simp only [Option.or_some, Option.some.injEq] at hc
    subst hc
    decide

end CfEmail

namespace CfEmail

/-! ### Further helper lemmas for the entity decoder -/

theorem decodeHtmlEntities_cons_ne {protoVal : List Char → List Char} {c : Char}
    (hc : ¬ c = '&') (s : List Char) :
    decodeHtmlEntities protoVal (c :: s) = c :: decodeHtmlEntities protoVal s := by
  show decodeGo protoVal (s.length + 1) (c :: s) = c :: decodeHtmlEntities protoVal s
  simp only [decodeGo, if_neg hc]
  rw [decodeGo_eq protoVal s.length s (le_refl _)]

theorem decodeHtmlEntities_amp {protoVal : List Char → List Char}
    {name rest : List Char} (hname : ¬ name = []) (hsemi : ';' ∉ name) :
    decodeHtmlEntities protoVal ('&' :: (name ++ ';' :: rest)) =
      (entitiesLookup protoVal name).getD ('&' :: (name ++ [';'])) ++
        decodeHtmlEntities protoVal rest := by
  have hsplit := splitAtSemicolon_append hsemi rest
  have hr : rest.length ≤ (name ++ ';' :: rest).length := by
    simp only [List.length_append, List.length_cons]
    omega
  show decodeGo protoVal ((name ++ ';' :: rest).length + 1)
      ('&' :: (name ++ ';' :: rest)) = _
  simp only [decodeGo, hsplit, if_neg hname]
  rw [if_pos trivial]
  cases htab : entitiesLookup protoVal name with
  | some repl =>
    simp only [htab, Option.getD_some]
    rw [decodeGo_eq _ _ rest hr]
  | none =>
    simp only [htab, Option.getD_none]
    rw [decodeGo_eq _ _ rest hr]
    simp

theorem entityTable_of_protoMember {name : List Char}
    (h : name ∈ objectProtoMemberNames) : entityTable name = none := by
  simp only [objectProtoMemberNames, List.mem_cons, List.not_mem_nil, or_false] at h
  rcases h with rfl | rfl | rfl | rfl | rfl | rfl | rfl | rfl | rfl | rfl | rfl | rfl <;>
    rfl

theorem entitiesLookup_table {protoVal : List Char → List Char}
    {name r : List Char} (h : entityTable name = some r) :
    entitiesLookup protoVal name = some r := by
  simp only [entitiesLookup, h]

theorem entitiesLookup_protoMember {protoVal : List Char → List Char}
    {name : List Char} (h : name ∈ objectProtoMemberNames) :
    entitiesLookup protoVal name = some (protoVal name) := by
  simp only [entitiesLookup, entityTable_of_protoMember h, if_pos h]

theorem entitiesLookup_none {protoVal : List Char → List Char}
    {name : List Char} (h1 : entityTable name = none)
    (h2 : name ∉ objectProtoMemberNames) :
    entitiesLookup protoVal name = none := by
  simp only [entitiesLookup, h1, if_neg h2]

end CfEmail

namespace CfEmail

/-! ## The claims -/

/-- Claim C1 (corrected).  For every input sequence of display units the
batching loop of sendEmbedsWithBatching and splitEmbedsIntoBatches produces
batches of at most MAX_EMBEDS_PER_MESSAGE = 10 units, and, provided every
unit serializes to at most MAX_TOTAL_EMBED_SIZE = 6000 bytes, the serialized
sizes of every batch sum to at most 6000.  For arbitrary unit sizes the byte
bound fails, see the counterexample. -/
theorem c1_batch_limits {α : Type} (size : α → Nat) (embeds : List α) :
    (∀ b ∈ splitEmbedsIntoBatches size embeds, b.length ≤ MAX_EMBEDS_PER_MESSAGE) ∧
    ((∀ e ∈ embeds, size e ≤ MAX_TOTAL_EMBED_SIZE) →
      ∀ b ∈ splitEmbedsIntoBatches size embeds,
        (b.map size).sum ≤ MAX_TOTAL_EMBED_SIZE) := by
  constructor
  · exact batchGo_count size embeds [] [] 0 (by simp)
      (by simp [MAX_EMBEDS_PER_MESSAGE])
  · intro h
    exact batchGo_sum size embeds [] [] 0 h (by simp) rfl
      (by simp [MAX_TOTAL_EMBED_SIZE])

/-- Claim C1, counterexample: a single unit of serialized size 6001 ends up
alone in a batch whose size sum 6001 exceeds MAX_BATCH_BYTES = 6000 (after an
empty batch has been flushed first), so the byte bound does not hold for
arbitrary unit sizes. -/
theorem c1_batch_limits_cex :
    splitEmbedsIntoBatches id [6001] = [[], [6001]] ∧
    ¬ (∀ b ∈ splitEmbedsIntoBatches id [6001],
        (b.map id).sum ≤ MAX_TOTAL_EMBED_SIZE) := by
  constructor
  · rfl
  · decide

/-- Claim C1, witness. -/
theorem c1_batch_limits_w :
    (([1, 2, 3] : List Nat).map id).sum ≤ MAX_TOTAL_EMBED_SIZE :=
  (c1_batch_limits id [1, 2, 3]).2 (by decide) [1, 2, 3] (by decide)

/-- Claim C10 (corrected).  Provided every unit serializes to at most
MAX_TOTAL_EMBED_SIZE = 6000 bytes, the batching loop never flushes or sends
an empty batch.  When a unit exceeds that size while the current batch is
empty, an empty batch is flushed, see the counterexample. -/
theorem c10_nonempty_batches {α : Type} (size : α → Nat) (embeds : List α)
    (h : ∀ e ∈ embeds, size e ≤ MAX_TOTAL_EMBED_SIZE) :
    ∀ b ∈ splitEmbedsIntoBatches size embeds, b ≠ [] :=
  batchGo_ne_nil size embeds [] [] 0 h (by simp) (fun _ => rfl)

/-- Claim C10, counterexample: when the very first unit has serialized size
6001 > MAX_BATCH_BYTES, the loop flushes and sends the empty current batch. -/
theorem c10_nonempty_batches_cex :
    ([] : List Nat) ∈ splitEmbedsIntoBatches id [6001] := by
  decide

/-- Claim C10, witness. -/
theorem c10_nonempty_batches_w : ([1] : List Nat) ≠ [] :=
  c10_nonempty_batches id [1] (by decide) [1] (by decide)

/-- Claim C3 (confirmed).  When every fetch returns status 429,
fetchWithRateLimit with the default budget MAX_RETRIES = 3 performs exactly
4 fetch calls with exactly one sleep between each pair of consecutive calls
and fails with the rate limit error. -/
theorem c3_retry_exhaustion (fetch : Nat → JsResponse)
    (h : ∀ i, (fetch i).status = 429) :
    fetchWithRateLimit fetch =
      ([FetchEvent.call 0, FetchEvent.sleep (retryAfterMs (fetch 0).retryAfter),
        FetchEvent.call 1, FetchEvent.sleep (retryAfterMs (fetch 1).retryAfter),
        FetchEvent.call 2, FetchEvent.sleep (retryAfterMs (fetch 2).retryAfter),
        FetchEvent.call 3],
        Except.error "Rate limit exceeded, maximum retries reached.") ∧
    (fetchWithRateLimit fetch).1.countP FetchEvent.isCall = MAX_RETRIES + 1 ∧
    (fetchWithRateLimit fetch).1.countP FetchEvent.isSleep = MAX_RETRIES := by
  have e : fetchWithRateLimit fetch =
      ([FetchEvent.call 0, FetchEvent.sleep (retryAfterMs (fetch 0).retryAfter),
        FetchEvent.call 1, FetchEvent.sleep (retryAfterMs (fetch 1).retryAfter),
        FetchEvent.call 2, FetchEvent.sleep (retryAfterMs (fetch 2).retryAfter),
        FetchEvent.call 3],
        Except.error "Rate limit exceeded, maximum retries reached.") := by
    show fetchLoopGo fetch (2 + 1) 0 (fetch 0) [FetchEvent.call 0] = _
    simp only [fetchLoopGo, h 0, if_pos]
    show fetchLoopGo fetch (1 + 1) 1 (fetch 1) _ = _
    simp only [fetchLoopGo, h 1, if_pos]
    show fetchLoopGo fetch (0 + 1) 2 (fetch 2) _ = _
    simp only [fetchLoopGo, h 2, if_pos]
    show fetchLoopGo fetch 0 3 (fetch 3) _ = _
    simp only [fetchLoopGo, h 3, if_pos]
    simp
  refine ⟨e, ?_, ?_⟩ <;> rw [e] <;> rfl

/-- Claim C3, witness. -/
theorem c3_retry_exhaustion_w :
    fetchWithRateLimit (fun _ => ⟨429, none⟩) =
      ([FetchEvent.call 0, FetchEvent.sleep (some DEFAULT_RETRY_AFTER_MS),
        FetchEvent.call 1, FetchEvent.sleep (some DEFAULT_RETRY_AFTER_MS),
        FetchEvent.call 2, FetchEvent.sleep (some DEFAULT_RETRY_AFTER_MS),
        FetchEvent.call 3],
        Except.error "Rate limit exceeded, maximum retries reached.") :=
  (c3_retry_exhaustion (fun _ => ⟨429, none⟩) (fun _ => rfl)).1

/-- Claim C6 (corrected).  The wait before a retry is the Retry-After header
parsed as seconds times 1000 when it parses as a number, and the 1000 ms
default when the header is absent or the empty string; a present, non-empty
but unparsable header however yields NaN (parseFloat NaN times 1000), not
the default. -/
theorem c6_retry_after_amended :
    (∀ s q, jsParseFloat s = some q → retryAfterMs (some s) = some (q * 1000)) ∧
    retryAfterMs none = some DEFAULT_RETRY_AFTER_MS ∧
    retryAfterMs (some "") = some DEFAULT_RETRY_AFTER_MS ∧
    (∀ s, ¬ s = "" → jsParseFloat s = none → retryAfterMs (some s) = none) := by
  refine ⟨?_, rfl, rfl, ?_⟩
  · intro s q hq
    by_cases hs : s = ""
    · subst hs
      rw [show jsParseFloat "" = none from rfl] at hq
      exact Option.noConfusion hq
    · simp [retryAfterMs, hs, hq]
  · intro s hs hn
    simp [retryAfterMs, hs, hn]

/-- Claim C6, counterexample: the header value later is present, non-empty
and unparsable, and the computed wait is NaN rather than the 1000 ms
default. -/
theorem c6_retry_after_cex :
    jsParseFloat "later" = none ∧
    retryAfterMs (some "later") = none ∧
    retryAfterMs (some "later") ≠ some DEFAULT_RETRY_AFTER_MS := by
  refine ⟨rfl, rfl, fun h => Option.noConfusion h⟩

theorem jsParseFloat_two : jsParseFloat "2" = some 2 := by
  have h0 : jsParseFloat "2"
      = some (1 * ((digitsVal ['2'] : ℚ)
          + (digitsVal ([] : List Char) : ℚ) / 10 ^ ([] : List Char).length)) := rfl
  have hd : digitsVal ['2'] = 2 := by decide
  have hd0 : digitsVal ([] : List Char) = 0 := rfl
  rw [h0, hd, hd0]
  norm_num

/-- Claim C6, witness. -/
theorem c6_retry_after_amended_w :
    retryAfterMs (some "2") = some (2 * 1000) :=
  c6_retry_after_amended.1 "2" 2 jsParseFloat_two

end CfEmail

namespace CfEmail

/-- Claim C8 (corrected).  decodeHtmlEntities scans left to right: text
without an ampersand passes through unchanged, and at an ampersand the
candidate entity name extends to the next semicolon (it may contain further
ampersands); the candidate is then looked up on the entities object: one of
the seven table keys is replaced by its character, one of the inherited
Object.prototype member names is replaced by the implementation defined
string coercion of that truthy inherited value, and any other candidate is
kept verbatim with the scan resuming after its semicolon.  Consequently a
table entity embedded after an earlier unterminated ampersand is not
replaced, and an inherited member name such as toString is not left
verbatim, see the counterexample. -/
theorem c8_entity_amended :
    (∀ (protoVal : List Char → List Char) (s : List Char), '&' ∉ s →
      decodeHtmlEntities protoVal s = s) ∧
    (∀ (protoVal : List Char → List Char) (pre name rest : List Char),
      '&' ∉ pre → ¬ name = [] → ';' ∉ name →
      decodeHtmlEntities protoVal (pre ++ '&' :: (name ++ ';' :: rest)) =
        pre ++ ((entitiesLookup protoVal name).getD ('&' :: (name ++ [';']))) ++
          decodeHtmlEntities protoVal rest) ∧
    (∀ (protoVal : List Char → List Char) (name r : List Char),
      entityTable name = some r → entitiesLookup protoVal name = some r) ∧
    (∀ (protoVal : List Char → List Char) (name : List Char),
      name ∈ objectProtoMemberNames →
      entitiesLookup protoVal name = some (protoVal name)) ∧
    (∀ (protoVal : List Char → List Char) (name : List Char),
      entityTable name = none → name ∉ objectProtoMemberNames →
      entitiesLookup protoVal name = none) := by
  refine ⟨fun protoVal s h => decodeHtmlEntities_no_amp h, ?_,
    fun protoVal name r h => entitiesLookup_table h,
    fun protoVal name h => entitiesLookup_protoMember h,
    fun protoVal name h1 h2 => entitiesLookup_none h1 h2⟩
  intro protoVal pre name rest hpre hname hsemi
  induction pre with
  | nil =>
    simp only [List.nil_append]
    exact decodeHtmlEntities_amp hname hsemi
  | cons p pre ih =>
    have hp : ¬ p = '&' := fun hh => hpre (by simp [hh])
    have hpre' : '&' ∉ pre := fun hm => hpre (by simp [hm])
    rw [List.cons_append, decodeHtmlEntities_cons_ne hp, ih hpre']
    simp

/-- Claim C8, counterexample.  Two failures of the claim on concrete inputs,
evaluated with the protoStub stand in for the implementation defined
coercion of the inherited members (the first input never consults it, and
for the second any truthy inherited value refutes verbatim preservation the
same way).  First, the input made of two ampersands, amp and a semicolon
contains the table entity sequence for amp, and decoding that sequence alone
yields the ampersand character; yet the whole input is left unchanged,
because the scan starts the candidate name at the first ampersand and
extends it to the semicolon.  Second, the candidate toString is not in the
table, so the claim requires its sequence to stay verbatim, but the lookup
resolves the inherited Object.prototype member, which is truthy, and its
string coercion replaces the match. -/
theorem c8_entity_cex :
    ("&&amp;".data = '&' :: "&amp;".data) ∧
    decodeHtmlEntities protoStub ("&amp;".data) = "&".data ∧
    decodeHtmlEntities protoStub ("&&amp;".data) = "&&amp;".data ∧
    decodeHtmlEntities protoStub ("&&amp;".data) ≠ "&&".data ∧
    entityTable ("toString".data) = none ∧
    entitiesLookup protoStub ("toString".data) = some (protoStub ("toString".data)) ∧
    decodeHtmlEntities protoStub ("&toString;".data) = protoStub ("toString".data) ∧
    decodeHtmlEntities protoStub ("&toString;".data) ≠ "&toString;".data := by
  refine ⟨rfl, by decide, by decide, by decide, by decide, by decide, by decide,
    by decide⟩

/-- Claim C8, witness. -/
theorem c8_entity_amended_w :
    decodeHtmlEntities protoStub ("x.&amp;z".data) = "x.&z".data := by
  have h := c8_entity_amended.2.1 protoStub ("x.".data) ("amp".data) ("z".data)
    (by decide) (by decide) (by decide)
  calc decodeHtmlEntities protoStub ("x.&amp;z".data)
      = decodeHtmlEntities protoStub
          ("x.".data ++ '&' :: ("amp".data ++ ';' :: "z".data)) := by decide
    _ = "x.".data ++
          ((entitiesLookup protoStub ("amp".data)).getD
            ('&' :: ("amp".data ++ [';']))) ++
          decodeHtmlEntities protoStub ("z".data) := h
    _ = "x.&z".data := by decide

/-- Claim C5 (corrected).  For an email in which both the text and the html
fields are absent, the delivered body is exactly one content block, but it
contains the error placeholder of extractTextFromHtml (the call throws on the
absent html value inside the try block), not the no-text placeholder; the
two resulting display units form a single batch whenever their serialized
sizes sum to at most MAX_BATCH_BYTES. -/
theorem c5_placeholder_amended (pipeline : List Char → List Char) :
    emailTextContent pipeline none none = errorExtractPlaceholder ∧
    chunkEmailContent MAX_DESCRIPTION_LENGTH (emailTextContent pipeline none none) =
      some [errorExtractPlaceholder] ∧
    (∀ s1 s2 : Nat, s1 + s2 ≤ MAX_TOTAL_EMBED_SIZE →
      splitEmbedsIntoBatches id [s1, s2] = [[s1, s2]]) := by
  have h1 : emailTextContent pipeline none none = errorExtractPlaceholder := rfl
  refine ⟨h1, ?_, ?_⟩
  · rw [h1]
    decide
  · intro s1 s2 hle
    have e1 : ¬ (MAX_TOTAL_EMBED_SIZE < 0 + id s1 ∨
        MAX_EMBEDS_PER_MESSAGE ≤ ([] : List Nat).length) := by
      simp only [MAX_TOTAL_EMBED_SIZE, MAX_EMBEDS_PER_MESSAGE, MAX_TOTAL_EMBED_SIZE,
        id, List.length_nil]
      simp only [MAX_TOTAL_EMBED_SIZE] at hle
      omega
    have e2 : ¬ (MAX_TOTAL_EMBED_SIZE < 0 + id s1 + id s2 ∨
        MAX_EMBEDS_PER_MESSAGE ≤ (([] : List Nat) ++ [s1]).length) := by
      simp only [MAX_TOTAL_EMBED_SIZE, MAX_EMBEDS_PER_MESSAGE, id, List.nil_append,
        List.length_singleton]
      simp only [MAX_TOTAL_EMBED_SIZE] at hle
      omega
    show batchGo id [s1, s2] [] [] 0 = [[s1, s2]]
    rw [show batchGo id [s1, s2] [] [] 0
        = if MAX_TOTAL_EMBED_SIZE < 0 + id s1 ∨
              MAX_EMBEDS_PER_MESSAGE ≤ ([] : List Nat).length then
            batchGo id [s2] ([] ++ [([] : List Nat)]) [s1] (id s1)
          else batchGo id [s2] [] ([] ++ [s1]) (0 + id s1) from rfl]
    rw [if_neg e1]
    rw [show batchGo id [s2] [] (([] : List Nat) ++ [s1]) (0 + id s1)
        = if MAX_TOTAL_EMBED_SIZE < 0 + id s1 + id s2 ∨
              MAX_EMBEDS_PER_MESSAGE ≤ (([] : List Nat) ++ [s1]).length then
            batchGo id ([] : List Nat) (([] : List (List Nat)) ++ [([] : List Nat) ++ [s1]])
              [s2] (id s2)
          else batchGo id ([] : List Nat) [] ((([] : List Nat) ++ [s1]) ++ [s2])
            (0 + id s1 + id s2) from rfl]
    rw [if_neg e2]
    rfl

/-- Claim C5, counterexample: with both fields absent the single content
block contains the error extraction placeholder, which is not the no-text
placeholder the claim requires. -/
theorem c5_placeholder_cex :
    emailTextContent id none none = errorExtractPlaceholder ∧
    chunkEmailContent MAX_DESCRIPTION_LENGTH (emailTextContent id none none) =
      some [errorExtractPlaceholder] ∧
    errorExtractPlaceholder ≠ noTextPlaceholder := by
  refine ⟨rfl, by decide, by decide⟩

/-- Claim C5, witness. -/
theorem c5_placeholder_amended_w :
    splitEmbedsIntoBatches id [1, 1] = [[1, 1]] :=
  (c5_placeholder_amended id).2.2 1 1 (by decide)

end CfEmail

namespace CfEmail

/-- Claim C2 (code bug).  The content chunking while loop of
sendEmbedMessage emits only blocks of at most ml characters, for every input
and every ml.  The splitContentIntoEmbeds revision of the loop however
violates the bound through its merge rule: on the 4097 character input below
the cut emits 4000 characters, the 96 character remainder passes the merge
check 4000 + 96 ≤ 4096, and the block emitted after joining with one space
has 4097 > MAX_DESCRIPTION_LENGTH characters. -/
theorem c2_chunk_bound :
    (∀ ml content bs, chunkEmailContent ml content = some bs →
      ∀ b ∈ bs, b.length ≤ ml) ∧
    splitContentIntoEmbeds MAX_DESCRIPTION_LENGTH MIN_CHUNK_MERGE_THRESHOLD
      mergeOverflowInput = some [mergeOverflowInput] ∧
    mergeOverflowInput.length = 4097 ∧ MAX_DESCRIPTION_LENGTH < 4097 := by
  refine ⟨?_, ?_, ?_, by decide⟩
  · intro ml content bs h b hb
    exact chunkGo_length_le content.length content bs h b hb
  · simp only [MAX_DESCRIPTION_LENGTH, MIN_CHUNK_MERGE_THRESHOLD]
    exact splitContentIntoEmbeds_merge_step mergeOverflow_cutChunk.symm
      mergeOverflow_next.symm
      (by decide)
      (by rw [List.length_replicate]; omega)
      (by simp only [List.length_replicate]; omega)
  · simp only [mergeOverflowInput, List.length_append, List.length_replicate,
      List.length_cons]

/-- Claim C2, witness. -/
theorem c2_chunk_bound_w : ("hello worl".data).length ≤ 10 :=
  c2_chunk_bound.1 10 ("hello world".data) ["hello worl".data, "d".data]
    (by decide) ("hello worl".data) (by decide)

/-- Claim C4 (corrected).  When after cutting a chunk the newly computed
remainder is non-empty, shorter than the merge threshold and fits with the
chunk in ml characters, the splitContentIntoEmbeds loop merges the remainder
into the chunk joined by one space and terminates with that single further
block; the loop without the merge rule emits the chunk and then the blocks
of the remainder, hence exactly one more block exactly when the remainder is
chunked into a single block, which holds in particular when the remainder
contains no space.  In general the loop without the merge rule may split the
remainder at a word boundary, so the merging loop can emit more than one
block fewer, see the counterexample. -/
theorem c4_merge_amended {ml threshold : Nat} {content chunk next : List Char}
    (hml : 0 < ml)
    (hchunk : chunk = cutChunk ml content) (hnext : next = nextContent ml content)
    (h1 : next ≠ []) (h2 : next.length < threshold)
    (h3 : chunk.length + next.length ≤ ml) :
    splitContentIntoEmbeds ml threshold content = some [chunk ++ ' ' :: next] ∧
    ∃ bs, chunkEmailContent ml next = some bs ∧
      chunkEmailContent ml content = some (chunk :: bs) ∧
      1 ≤ bs.length ∧
      ((∀ c ∈ next, c ≠ ' ') → bs = [next]) := by
  have hmerge := splitContentIntoEmbeds_merge_step hchunk hnext h1 h2 h3
  have hne : content ≠ [] := by
    intro hc
    subst hc
    apply h1
    rw [hnext]
    unfold nextContent
    rw [List.drop_nil]
    rfl
  obtain ⟨bs, hbs, hcons⟩ := chunkEmailContent_cons hml hne
  rw [← hnext] at hbs
  rw [← hchunk] at hcons
  obtain ⟨bs', hbs', hcons'⟩ := chunkEmailContent_cons hml h1
  have hbseq : bs = cutChunk ml next :: bs' := by
    rw [hbs] at hcons'
    exact (Option.some.injEq _ _).mp hcons'
  refine ⟨hmerge, bs, hbs, hcons, by rw [hbseq]; simp, ?_⟩
  intro hns
  have hlen : next.length ≤ ml := by omega
  have htake : next.take ml = next := List.take_of_length_le hlen
  have hnospace : lastSpaceIndex (next.take ml) = none := by
    rw [htake]
    exact lastSpaceIndex_eq_none hns
  have hcut : cutChunk ml next = next := by
    rw [cutChunk_of_none hnospace, htake]
  have hnextnext : nextContent ml next = [] := by
    unfold nextContent
    rw [hcut, List.drop_length]
    exact jsTrim_nil
  rw [hnextnext] at hbs'
  rw [chunkEmailContent_nil] at hbs'
  have hbs'nil : bs' = [] := ((Option.some.injEq _ _).mp hbs').symm
  rw [hbseq, hbs'nil, hcut]

/-- Claim C4, counterexample: on the input below the merge fires (the cut
chunk has 4000 characters and the trimmed remainder 96, within the
threshold 100 and the budget 4096), the merging loop emits one single block,
but the loop without the merge rule emits three blocks, because it cuts the
96 character remainder again at its own word boundary; three is not one more
than one, so the merging loop does not emit exactly one block fewer. -/
theorem c4_merge_cex :
    splitContentIntoEmbeds MAX_DESCRIPTION_LENGTH MIN_CHUNK_MERGE_THRESHOLD
      mergeCountInput
      = some [List.replicate 4000 'a' ++
          ' ' :: (List.replicate 90 'b' ++ ' ' :: List.replicate 5 'c')] ∧
    chunkEmailContent MAX_DESCRIPTION_LENGTH mergeCountInput
      = some [List.replicate 4000 'a', List.replicate 90 'b', List.replicate 5 'c'] ∧
    (cutChunk MAX_DESCRIPTION_LENGTH mergeCountInput).length = 4000 ∧
    (nextContent MAX_DESCRIPTION_LENGTH mergeCountInput).length = 96 := by
  simp only [MAX_DESCRIPTION_LENGTH, MIN_CHUNK_MERGE_THRESHOLD]
  have hlen : mergeCountInput.length = 4187 := by
    simp only [mergeCountInput, List.length_append, List.length_replicate,
      List.length_cons]
  have hne : mergeCountInput ≠ [] := by
    intro h
    rw [h] at hlen
    simp at hlen
  refine ⟨?_, ?_, ?_, ?_⟩
  · exact splitContentIntoEmbeds_merge_step mergeCount_cutChunk.symm
      mergeCount_next.symm
      (by simp)
      (by simp only [List.length_append, List.length_replicate, List.length_cons]; omega)
      (by simp only [List.length_append, List.length_replicate, List.length_cons]; omega)
  · obtain ⟨bs, hbs, hcons⟩ := @chunkEmailContent_cons 4096 mergeCountInput (by decide) hne
    rw [mergeCount_next] at hbs
    have hval : chunkEmailContent 4096
        (List.replicate 90 'b' ++ ' ' :: List.replicate 5 'c')
        = some [List.replicate 90 'b', List.replicate 5 'c'] := by decide
    rw [hval] at hbs
    have hbseq : bs = [List.replicate 90 'b', List.replicate 5 'c'] :=
      ((Option.some.injEq _ _).mp hbs).symm
    rw [hcons, mergeCount_cutChunk, hbseq]
  · rw [mergeCount_cutChunk, List.length_replicate]
  · rw [mergeCount_next]
    simp only [List.length_append, List.length_replicate, List.length_cons]

/-- Claim C4, witness. -/
theorem c4_merge_amended_w :
    splitContentIntoEmbeds 10 5 ("123456789 b".data) = some ["123456789 b".data] :=
  (@c4_merge_amended 10 5 ("123456789 b".data) ("123456789".data) ("b".data)
    (by decide) (by decide) (by decide) (by decide) (by decide) (by decide)).1

/-- Claim C7 (corrected).  The chunking loop cuts the emitted block back to
the last space of the ml character prefix whenever that space lies strictly
past 80 percent of the prefix length; the word boundary test input of the
specification is cut at the space.  A space lying exactly at 80 percent is
not taken, see the counterexample. -/
theorem c7_word_boundary_amended :
    (∀ ml (content : List Char) i, lastSpaceIndex (content.take ml) = some i →
        4 * (content.take ml).length < 5 * i →
        ∃ rest, chunkEmailContent ml content
          = some ((content.take ml).take i :: rest)) ∧
    chunkEmailContent 100 wordBoundaryHitInput
      = some [List.replicate 90 'a', List.replicate 20 'b'] := by
  constructor
  · intro ml content i hs hlt
    have hne : content ≠ [] := by
      intro hc
      subst hc
      simp [lastSpaceIndex] at hs
    have hml : 0 < ml := by
      by_contra h0
      have hz : ml = 0 := by omega
      subst hz
      simp [lastSpaceIndex] at hs
    obtain ⟨bs, hbs, hcons⟩ := chunkEmailContent_cons hml hne
    refine ⟨bs, ?_⟩
    rw [hcons, cutChunk_cut hs hlt]
  · decide

/-- Claim C7, counterexample: on this input the last space of the 100
character prefix sits exactly at 80 percent of the prefix length (index 80
of 100); the claim requires the cut, but the loop condition is strict, so
the first emitted block is the full 100 character prefix and the word is
split. -/
theorem c7_word_boundary_cex :
    lastSpaceIndex (wordBoundaryMissInput.take 100) = some 80 ∧
    5 * 80 = 4 * (wordBoundaryMissInput.take 100).length ∧
    chunkEmailContent 100 wordBoundaryMissInput
      = some [List.replicate 80 'a' ++ ' ' :: List.replicate 19 'b',
              List.replicate 20 'b'] ∧
    List.replicate 80 'a' ++ ' ' :: List.replicate 19 'b'
      ≠ List.replicate 80 'a' := by
  refine ⟨by decide, by decide, by decide, by decide⟩

/-- Claim C7, witness. -/
theorem c7_word_boundary_amended_w :
    ∃ rest, chunkEmailContent 10 ("aaaaaaaaa b".data)
      = some ((("aaaaaaaaa b".data).take 10).take 9 :: rest) :=
  c7_word_boundary_amended.1 10 ("aaaaaaaaa b".data) 9 (by decide) (by decide)

/-- Claim C9 (confirmed).  For every input and every positive ml the
chunking loop of sendEmbedMessage terminates within as many iterations as
the input has characters, and every emitted chunk is non-empty: the
word-boundary cut applies only when the last space lies strictly past 80
percent of the prefix, so the cut chunk keeps at least one character, and
the remaining text gets strictly shorter every iteration. -/
theorem c9_termination {ml : Nat} (hml : 0 < ml) (content : List Char) :
    ∃ bs, chunkEmailContent ml content = some bs ∧ ∀ b ∈ bs, 1 ≤ b.length := by
  obtain ⟨bs, hbs⟩ := chunkEmailContent_isSome hml content
  exact ⟨bs, hbs, fun b hb => chunkGo_length_pos hml content.length content bs hbs b hb⟩

/-- Claim C9, witness. -/
theorem c9_termination_w :
    ∃ bs, chunkEmailContent 4096 ("hi there".data) = some bs ∧
      ∀ b ∈ bs, 1 ≤ b.length :=
  c9_termination (by decide) ("hi there".data)

end CfEmail
